import Mathlib

/-!
Verification development for the lyrics-corpus pipeline (src/main.py).

The core functions `sanitize_lyrics`, `sanitize_filename`, `build_corpus`,
`calculate_word_stats` and the orchestration of `download_lyrics`/`iter_songs`
are shallowly embedded below.  Python strings are modelled as `String` /
`List Char`; Python floats produced by `unique_words / total_words * 1000`
are modelled by exact rationals (`ℚ`); file-system side effects are modelled
as an explicit event trace.  The ASCII-relevant fragment of Python's `str.lower`
and of the `\w` character class is used (the claims and all concrete inputs
are ASCII).
-/

/-- Character code 39, the straight apostrophe. -/
def apostrophe : Char := Char.ofNat 39

/-- Character code 34, the straight double quote. -/
def dquoteChar : Char := Char.ofNat 34

/-- Character code 8217, the right single curly quotation mark. -/
def rsquoChar : Char := Char.ofNat 8217

/-- One-character string holding the straight apostrophe (used to build
string literals that contain an apostrophe). -/
def sqStr : String := String.singleton apostrophe

/-- ASCII letter, the `[a-zA-Z]` part of the tokenizer's character class. -/
def isAsciiLetter (c : Char) : Bool :=
  (Char.ofNat 97 ≤ c && c ≤ Char.ofNat 122) || (Char.ofNat 65 ≤ c && c ≤ Char.ofNat 90)

/-- ASCII fragment `[a-zA-Z0-9_]` of Python's Unicode `\w` word-character
class (Python's full class is `str.isalnum` plus the underscore, so it also
contains non-ASCII letters and digits).  The scanner below is embedded
generically in the word class; `isWordChar` is the instance used to evaluate
the pipeline concretely, and it agrees with Python's class on ASCII text -
every concrete input evaluated in this development is ASCII. -/
def isWordChar (c : Char) : Bool :=
  isAsciiLetter c || (Char.ofNat 48 ≤ c && c ≤ Char.ofNat 57) || c == Char.ofNat 95

/-- The tokenizer's character class `[a-zA-Z']`. -/
def isTokChar (c : Char) : Bool :=
  isAsciiLetter c || c == apostrophe

/-- Word-character test for word class `w`, extended to an optional
character; `none` (out of bounds) counts as a non-word character, exactly as
Python's `\b` treats the ends of the string. -/
def isWordOpt (w : Char → Bool) : Option Char → Bool
  | none => false
  | some c => w c

/-- Character of `l` at index `i`, if any. -/
def charAt? (l : List Char) (i : Nat) : Option Char :=
  (l.drop i).head?

/-- Python's `\b` word boundary, relative to word class `w`, at position `k`
of the candidate text `run ++ rest` (for `1 ≤ k ≤ run.length`): the
word-character status changes between positions `k-1` and `k`. -/
def boundaryOkW (w : Char → Bool) (run rest : List Char) (k : Nat) : Bool :=
  isWordOpt w (charAt? run (k - 1)) != isWordOpt w (charAt? (run ++ rest) k)

/-- Backtracking search of the regex engine: the largest `k ≤ bound` at which
a `\b` boundary closes the match (`0` when no such position exists).  The
regex `\b[a-zA-Z']+\b` first tries the greedy (longest) extent and then
shrinks it, so the largest admissible end position wins. -/
def pickEndAuxW (w : Char → Bool) (run rest : List Char) : Nat → Nat
  | 0 => 0
  | k + 1 => if boundaryOkW w run rest (k + 1) then k + 1 else pickEndAuxW w run rest k

/-- End position chosen by the regex engine for a match attempt whose maximal
`[a-zA-Z']*` extent is `run`, followed by `rest`. -/
def pickEndW (w : Char → Bool) (run rest : List Char) : Nat :=
  pickEndAuxW w run rest run.length

/-- One left-to-right scan of `re.findall(r"\b[a-zA-Z']+\b", ...)` (line 244
of src/main.py), for word class `w` (the class from which `\b` is computed;
the character class `[a-zA-Z']` of the pattern itself is ASCII regardless).
`p` is the character immediately before the current position (needed for
`\b`), `fuel` is a structural-recursion bound: every step consumes at least
one character, so `fuel = length of the text` is enough.  At each position
the engine requires a `\b` boundary and at least one `[a-zA-Z']` character;
it then takes the maximal run of class characters and backtracks to the last
position at which a closing `\b` holds (`pickEndW`); on failure it advances
one position. -/
def findTokensWF (w : Char → Bool) : Nat → Option Char → List Char → List (List Char)
  | 0, _, _ => []
  | _ + 1, _, [] => []
  | fuel + 1, p, c :: rest =>
    if isTokChar c && (isWordOpt w p != w c) then
      let run := (c :: rest).takeWhile isTokChar
      let rs := (c :: rest).dropWhile isTokChar
      let k := pickEndW w run rs
      if 0 < k then
        run.take k :: findTokensWF w fuel (charAt? run (k - 1)) (run.drop k ++ rs)
      else
        findTokensWF w fuel (some c) rest
    else findTokensWF w fuel (some c) rest

/-- All matches of the scanner with word class `w` on `l`. -/
def findTokensW (w : Char → Bool) (l : List Char) : List (List Char) :=
  findTokensWF w l.length none l

/-- All matches of `re.findall(r"\b[a-zA-Z']+\b", ...)` on `l`, with `\b`
taken over the ASCII word class `isWordChar`.  This is the instance used by
the word-statistics pipeline; it coincides with the program on ASCII text,
and all concrete texts evaluated in this development are ASCII.  Statements
about the `\b`-dependent shape of the tokens are proved generically over the
word class (see the tokenizer equivalence theorem). -/
def findTokens (l : List Char) : List (List Char) :=
  findTokensW isWordChar l

/-- Maximal runs of `[a-zA-Z']` characters of a text, with the same fuel
discipline as `findTokensWF` (each step consumes at least one character).
This is the tokenization described by the specification: "maximal runs of
ASCII letters and apostrophes". -/
def maximalRunsF : Nat → List Char → List (List Char)
  | 0, _ => []
  | _ + 1, [] => []
  | fuel + 1, c :: rest =>
    if isTokChar c then
      ((c :: rest).takeWhile isTokChar) :: maximalRunsF fuel ((c :: rest).dropWhile isTokChar)
    else maximalRunsF fuel rest

/-- Maximal runs of `[a-zA-Z']` characters of a text (specification-side
tokenization, to be compared with `findTokens`). -/
def maximalRuns (l : List Char) : List (List Char) :=
  maximalRunsF l.length l

/-- Test used by the conditional tokenizer equivalence: every apostrophe of
the text has an ASCII letter immediately before it and immediately after it
(`p` is the character preceding the current suffix). -/
def apostOk : Option Char → List Char → Bool
  | _, [] => true
  | p, c :: rest =>
    if c = apostrophe then
      (match p with
       | some d => isAsciiLetter d
       | none => false)
      && (match rest.head? with
          | some d => isAsciiLetter d
          | none => false)
      && apostOk (some c) rest
    else apostOk (some c) rest

/-- Last character of `xs` if `xs` is nonempty, otherwise the preceding
context `p`. -/
def lastOpt (p : Option Char) (xs : List Char) : Option Char :=
  xs.foldl (fun _ c => some c) p

/-- ASCII fragment of Python's `str.lower` (maps `A`-`Z`, codes 65-90, to
`a`-`z`, codes 97-122, and leaves everything else unchanged). -/
def lowerChar (c : Char) : Char :=
  if 65 ≤ c.toNat ∧ c.toNat ≤ 90 then Char.ofNat (c.toNat + 32) else c

/-- The STOPWORDS set of src/main.py (lines 16-143), transcribed entry by
entry; the Python source lists `"an"` and `"would"` twice, which is harmless
for membership and kept here. -/
def STOPWORDS : List (List Char) :=
  [ "a".data, "an".data, "the".data, "this".data, "that".data, "these".data, "those".data,
    "am".data, "are".data, "be".data, "been".data, "being".data, "can".data, "could".data,
    ("couldn" ++ sqStr ++ "t").data, "did".data, ("didn" ++ sqStr ++ "t").data, "do".data,
    "does".data, ("doesn" ++ sqStr ++ "t").data, ("don" ++ sqStr ++ "t").data, "had".data,
    ("hadn" ++ sqStr ++ "t").data, "has".data, ("hasn" ++ sqStr ++ "t").data, "have".data,
    ("haven" ++ sqStr ++ "t").data, "he".data, "her".data, "hers".data, "herself".data,
    "him".data, "himself".data, "his".data, "i".data, "is".data, ("isn" ++ sqStr ++ "t").data,
    "it".data, "its".data, "itself".data, "may".data, "might".data, "me".data, "must".data,
    "my".data, "myself".data, "our".data, "ours".data, "ourselves".data, "she".data,
    "theirs".data, "them".data, "themselves".data, "they".data, "we".data, "were".data,
    "will".data, ("won" ++ sqStr ++ "t").data, "would".data, "you".data, "your".data,
    "yours".data, "yourself".data, "yourselves".data,
    "about".data, "above".data, "after".data, "again".data, "against".data, "all".data,
    "also".data, "an".data, "and".data, "any".data, "as".data, "at".data, "before".data,
    "below".data, "between".data, "both".data, "but".data, "by".data, "during".data,
    "for".data, "from".data, "further".data, "if".data, "in".data, "into".data, "near".data,
    "nor".data, "of".data, "off".data, "on".data, "or".data, "other".data, "over".data,
    "own".data, "same".data, "so".data, "some".data, "such".data, "than".data, "their".data,
    "then".data, "there".data, "to".data, "too".data, "under".data, "until".data, "up".data,
    "very".data, "was".data, "what".data, "when".data, "where".data, "which".data,
    "while".data, "who".data, "whom".data, "why".data, "with".data, "would".data ]

/-- The calculate_word_stats function of src/main.py (lines 241-250): lower-
case the text, tokenize with `re.findall(r"\b[a-zA-Z']+\b", ...)`, drop
stopwords, and return total count, distinct count (Python's `len(set(...))`
is the length of the deduplicated list) and the unique-per-1000 ratio
(`0.0` when no word remains). -/
def calculate_word_stats (text : String) : Nat × Nat × ℚ :=
  let words := findTokens (text.data.map lowerChar)
  let filtered_words := words.filter (fun w => !STOPWORDS.contains w)
  let total_words := filtered_words.length
  let unique_words := filtered_words.dedup.length
  (total_words, unique_words,
    if total_words = 0 then 0 else (unique_words : ℚ) / (total_words : ℚ) * 1000)

/-- The filtered token list of `calculate_word_stats`: tokens of the lower-
cased text that are not stopwords. -/
def filteredWords (text : String) : List (List Char) :=
  (findTokens (text.data.map lowerChar)).filter (fun w => !STOPWORDS.contains w)

/-- Quote characters removed by the second substitution of sanitize_lyrics:
straight double quote, straight apostrophe, right single curly quote
(the regex `[\"'’]`). -/
def isQuoteChar (c : Char) : Bool :=
  c == dquoteChar || c == apostrophe || c == rsquoChar

/-- Scanner for `re.sub(r"\[.*?\]", "", text)` (line 149 of src/main.py).
Python's `.` does not match a newline, so a match extends from a `[` to the
first following `]` with no newline in between.  State `none`: outside any
candidate match; state `some buf`: a `[` was seen and `buf` holds the
(reversed) characters scanned since then, none of which is `]` or a newline.
On `]` the whole span is dropped; on a newline or at the end of the text the
match attempt fails and the scanned characters are emitted verbatim (no later
match can start inside them: any `[` among them is stopped by the same
newline or text end, since `buf` contains no `]`). -/
def rbAux : Option (List Char) → List Char → List Char
  | none, [] => []
  | none, c :: rest =>
    if c = '[' then rbAux (some []) rest else c :: rbAux none rest
  | some buf, [] => '[' :: buf.reverse
  | some buf, c :: rest =>
    if c = ']' then rbAux none rest
    else if c = '\n' then '[' :: buf.reverse ++ '\n' :: rbAux none rest
    else rbAux (some (c :: buf)) rest

/-- Result of `re.sub(r"\[.*?\]", "", text)` on `text`. -/
def removeBrackets (text : List Char) : List Char :=
  rbAux none text

/-- The sanitize_lyrics function of src/main.py (lines 146-151): remove
bracketed spans, then remove quote characters. -/
def sanitize_lyrics (text : List Char) : List Char :=
  (removeBrackets text).filter (fun c => !isQuoteChar c)

/-- Bracket removal as described by claim C4: every substring delimited by
`[` and `]` inclusive is removed, matching stopping at the first `]` after
each `[`, with no restriction on the characters in between (in particular a
newline may occur inside the span).  Defined from the claim's words, for
comparison with `removeBrackets`. -/
def rbClaimAux : Option (List Char) → List Char → List Char
  | none, [] => []
  | none, c :: rest =>
    if c = '[' then rbClaimAux (some []) rest else c :: rbClaimAux none rest
  | some buf, [] => '[' :: buf.reverse
  | some buf, c :: rest =>
    if c = ']' then rbClaimAux none rest else rbClaimAux (some (c :: buf)) rest

/-- Lyrics sanitization as claim C4 describes it: remove every `[`-`]` span
(newlines allowed inside), then remove quote characters. -/
def sanitizeLyricsClaim (text : List Char) : List Char :=
  (rbClaimAux none text).filter (fun c => !isQuoteChar c)

/-- Stop characters of the bracket scanner: `]` closes a span, a newline
aborts the match attempt. -/
def stopChar (c : Char) : Bool :=
  c == ']' || c == '\n'

/-- The text has no `]` before its first newline (or end).  A `[` whose
following text satisfies this can never be removed by `removeBrackets`. -/
def noClose (l : List Char) : Bool :=
  ((l.dropWhile (fun c => !stopChar c)).head?) != some ']'

/-- Every `[` of the text is blocked: the text after it contains no `]`
before the first newline (or end).  `removeBrackets` leaves such a text
unchanged. -/
def bracketsBlocked : List Char → Bool
  | [] => true
  | c :: rest => (if c = '[' then noClose rest else true) && bracketsBlocked rest

/-- Characters removed by sanitize_filename (line 157 of src/main.py): the
class `[\\/:*?"<>|]`. -/
def isReservedFileChar (c : Char) : Bool :=
  c == '\\' || c == '/' || c == ':' || c == '*' || c == '?' ||
  c == dquoteChar || c == '<' || c == '>' || c == '|'

/-- ASCII whitespace stripped by Python's `str.strip()`: space, tab, newline,
carriage return, vertical tab, form feed. -/
def isPySpace (c : Char) : Bool :=
  c == ' ' || c == '\t' || c == '\n' || c == '\r' ||
  c == Char.ofNat 11 || c == Char.ofNat 12

/-- Python's `str.strip()`: drop leading and trailing whitespace. -/
def stripEnds (l : List Char) : List Char :=
  ((l.dropWhile isPySpace).reverse.dropWhile isPySpace).reverse

/-- The sanitize_filename function of src/main.py (lines 154-158): remove
reserved characters, strip surrounding whitespace, and fall back to
"untitled" when nothing remains (Python's `cleaned.strip() or "untitled"`). -/
def sanitize_filename (name : List Char) : List Char :=
  if (stripEnds (name.filter (fun c => !isReservedFileChar c))).isEmpty then "untitled".data
  else stripEnds (name.filter (fun c => !isReservedFileChar c))

/-- A song as produced by the retrieval adapter: a title and an optional
lyrics body (`none` models a missing `song.lyrics`). -/
structure Song where
  title : String
  lyrics : Option String
deriving DecidableEq

/-- File-system effects performed by download_lyrics, in program order. -/
inductive FsEvent where
  | mkdirP (path : String)
  | writeText (path : String) (content : String)
deriving DecidableEq

/-- Python's `if not song.lyrics: continue` keeps a song exactly when its
lyrics are present and nonempty. -/
def hasLyrics (s : Song) : Bool :=
  match s.lyrics with
  | none => false
  | some l => !(l == "")

/-- Path of the file written for a song (line 210-211 of src/main.py):
`artist folder / sanitized title + ".txt"`. -/
def songFilePath (artist_folder : String) (s : Song) : String :=
  artist_folder ++ "/" ++ String.mk (sanitize_filename s.title.data) ++ ".txt"

/-- Sanitized lyrics written for a song with lyrics. -/
def songFileContent (s : Song) : String :=
  String.mk (sanitize_lyrics (s.lyrics.getD "").data)

/-- The per-song loop of download_lyrics (lines 204-214 of src/main.py):
songs without lyrics are skipped, every other song produces one
`(path, content)` write, in processing order. -/
def songsWrites (artist_folder : String) : List Song → List (String × String)
  | [] => []
  | s :: rest =>
    match s.lyrics with
    | none => songsWrites artist_folder rest
    | some l =>
      if l = "" then songsWrites artist_folder rest
      else (songFilePath artist_folder s, String.mk (sanitize_lyrics l.data)) ::
        songsWrites artist_folder rest

/-- Error message of iter_songs (line 171 of src/main.py). -/
def noSongsMsg (artist_name : String) : String :=
  "No songs found for artist " ++ sqStr ++ artist_name ++ sqStr ++ "."

/-- Error message of download_lyrics (line 217 of src/main.py). -/
def noLyricsMsg : String :=
  "No lyrics were saved; ensure the artist has songs with lyrics."

/-- The download_lyrics function of src/main.py (lines 176-219) together with
iter_songs (lines 161-173).  `search_result` models the adapter's
`search_artist` answer: `none` for no artist, `some songs` for an artist with
the given song list.  Note the order of effects in the source: the artist
folder is created at line 201, and `iter_songs` is a GENERATOR, so its body -
including the no-results check that raises `RuntimeError` - only runs when
the `for` loop at line 204 pulls the first song, i.e. after the `mkdir`.
The returned trace lists the file-system effects in program order, and the
`Except` value is the raised error or the returned list of written paths. -/
def download_lyrics (output_dir artist_name : String) (search_result : Option (List Song)) :
    List FsEvent × Except String (List String) :=
  let artist_folder := output_dir ++ "/" ++ String.mk (sanitize_filename artist_name.data)
  let mkEv : List FsEvent := [FsEvent.mkdirP artist_folder]
  match search_result with
  | none => (mkEv, Except.error (noSongsMsg artist_name))
  | some songs =>
    if songs.isEmpty then (mkEv, Except.error (noSongsMsg artist_name))
    else
      let written := songsWrites artist_folder songs
      (mkEv ++ written.map (fun w => FsEvent.writeText w.1 w.2),
        if written.isEmpty then Except.error noLyricsMsg
        else Except.ok (written.map Prod.fst))

/-- Lexicographic order on character lists by code point: how Python compares
two `str` values.  Used to compare the individual components of a path. -/
def pathLe : List Char → List Char → Bool
  | [], _ => true
  | _ :: _, [] => false
  | a :: as, b :: bs => if a < b then true else if b < a then false else pathLe as bs

/-- String comparison by code point (see `pathLe`), applied to one path
component. -/
def componentLe (s t : String) : Bool :=
  pathLe s.data t.data

/-- Order in which Python's `sorted` arranges `pathlib` paths.  A `pathlib`
path value is determined by its tuple of components: two paths are equal
exactly when their component tuples are, and paths compare lexicographically
by components, each component compared as a string.  A path is therefore
modelled as its list of components; e.g. `a/b` is `["a", "b"]` and sorts
before `a.c/d` = `["a.c", "d"]` (component `"a"` < `"a.c"`), although the raw
path strings compare the other way around. -/
def partsLe : List String → List String → Bool
  | [], _ => true
  | _ :: _, [] => false
  | a :: as, b :: bs => if a = b then partsLe as bs else componentLe a b

/-- Path order as a relation on component lists (see `partsLe`). -/
def pathPartsLe (s t : List String) : Prop :=
  partsLe s t = true

instance : DecidableRel pathPartsLe :=
  fun s t => instDecidableEqBool (partsLe s t) true

/-- Concatenation of the files' contents in the given order, one newline
after each content (including the last) - the `corpus_parts` / `"".join`
shape of build_corpus, stated for an arbitrary path order. -/
def corpusConcat (readText : List String → String) (paths : List (List String)) : String :=
  String.join (paths.map (fun p => readText p ++ "\n"))

/-- The build_corpus function of src/main.py (lines 222-238).  The input
paths are `pathlib` path objects; a path value is its component tuple (see
`partsLe`), so a path is modelled as a `List String` of components and
`readText` models `Path.read_text` (every path is readable).  Python's
`sorted(files)` sorts the paths by their component tuples; it is modelled by
insertion sort under `pathPartsLe`: any sorting algorithm yields the same
result because `pathPartsLe` is total, transitive and antisymmetric on
component lists.  Returns the corpus path and the concatenated text; the
write of the corpus file is a file-system effect outside this model. -/
def build_corpus (readText : List String → String) (files : List (List String))
    (artist_folder : String) : String × String :=
  (artist_folder ++ "/corpus.txt", corpusConcat readText (List.insertionSort pathPartsLe files))

/-- Read function of the worked example of claim C2: the single-component
path `"a.txt"` holds `"A"`, `"b.txt"` holds `"B"`. -/
def exampleRead (p : List String) : String :=
  if p = ["a.txt"] then "A" else if p = ["b.txt"] then "B" else ""

instance {e a : Type} [DecidableEq e] [DecidableEq a] : DecidableEq (Except e a) :=
  fun x y =>
    match x, y with
    | Except.error u, Except.error v =>
      if h : u = v then Decidable.isTrue (by rw [h])
      else Decidable.isFalse (fun hh => h (Except.error.inj hh))
    | Except.ok u, Except.ok v =>
      if h : u = v then Decidable.isTrue (by rw [h])
      else Decidable.isFalse (fun hh => h (Except.ok.inj hh))
    | Except.error _, Except.ok _ => Decidable.isFalse (fun hh => Except.noConfusion hh)
    | Except.ok _, Except.error _ => Decidable.isFalse (fun hh => Except.noConfusion hh)

theorem toNat_ofNat_valid (n : Nat) (h : n.isValidChar) : (Char.ofNat n).toNat = n := by
  rw [Char.ofNat, dif_pos h]; rfl

theorem lowerChar_idem (c : Char) : lowerChar (lowerChar c) = lowerChar c := by
  unfold lowerChar
  split
  · next h =>
    have hv : (c.toNat + 32).isValidChar := Or.inl (by omega)
    rw [toNat_ofNat_valid _ hv]
    rw [if_neg (by omega)]
  · rfl

theorem map_lowerChar_idem (l : List Char) :
    (l.map lowerChar).map lowerChar = l.map lowerChar := by
  induction l with
  | nil => rfl
  | cons c rest ih => simp [lowerChar_idem, ih]

theorem calculate_word_stats_eq (t : String) :
    calculate_word_stats t = ((filteredWords t).length, (filteredWords t).dedup.length,
      if (filteredWords t).length = 0 then (0 : ℚ)
      else ((filteredWords t).dedup.length : ℚ) / ((filteredWords t).length : ℚ) * 1000) := rfl

/-- Claim C7: for every input text, the triple returned by
`calculate_word_stats` satisfies `unique_words ≤ total_words`, with
`total_words ≥ 0` and `unique_words ≥ 0`. -/
theorem c7_unique_le_total (t : String) :
    (calculate_word_stats t).2.1 ≤ (calculate_word_stats t).1
    ∧ 0 ≤ (calculate_word_stats t).1 ∧ 0 ≤ (calculate_word_stats t).2.1 := by
  refine ⟨?_, Nat.zero_le _, Nat.zero_le _⟩
  rw [calculate_word_stats_eq]
  simpa using ((filteredWords t).dedup_sublist).length_le

/-- Claim C1: `calculate_word_stats` returns the number of filtered tokens
(duplicates counted), the number of distinct filtered tokens, and
`unique / total * 1000` when `total > 0` (`0.0` otherwise); on
`"the cat and the Dog ran, the dog ran fast"` it returns
`(6, 4, 4/6*1000)` and on the empty string it returns `(0, 0, 0.0)`. -/
theorem c1_calculate_word_stats :
    (∀ t : String,
        (calculate_word_stats t).1 = (filteredWords t).length
        ∧ (calculate_word_stats t).2.1 = (filteredWords t).toFinset.card
        ∧ ((calculate_word_stats t).1 ≠ 0 →
            (calculate_word_stats t).2.2 =
              ((calculate_word_stats t).2.1 : ℚ) / ((calculate_word_stats t).1 : ℚ) * 1000)
        ∧ ((calculate_word_stats t).1 = 0 → (calculate_word_stats t).2.2 = 0))
    ∧ calculate_word_stats "the cat and the Dog ran, the dog ran fast" =
        (6, 4, (4 : ℚ) / 6 * 1000)
    ∧ calculate_word_stats "" = (0, 0, 0) := by
  refine ⟨fun t => ?_, ?_, ?_⟩
  · rw [calculate_word_stats_eq]
    refine ⟨rfl, (List.card_toFinset _).symm, fun h => ?_, fun h => ?_⟩
    · simp only at h ⊢
      rw [if_neg h]
    · simp only at h ⊢
      rw [if_pos h]
  · have hl : (filteredWords "the cat and the Dog ran, the dog ran fast").length = 6 := by
      decide
    have hd : (filteredWords "the cat and the Dog ran, the dog ran fast").dedup.length = 4 := by
      decide
    rw [calculate_word_stats_eq, hl, hd]
    norm_num
  · rw [calculate_word_stats_eq]
    norm_num
    decide

theorem c1_calculate_word_stats_witness :
    (calculate_word_stats "cat dog").1 ≠ 0
    ∧ (calculate_word_stats "cat dog").2.2 =
        ((calculate_word_stats "cat dog").2.1 : ℚ) / ((calculate_word_stats "cat dog").1 : ℚ)
          * 1000 :=
  ⟨by decide, (c1_calculate_word_stats.1 "cat dog").2.2.1 (by decide)⟩

/-- Claim C10: `calculate_word_stats` is invariant under letter case of its
input: texts with the same lower-casing get identical statistics, and in
particular a text and its lower-cased form get identical statistics. -/
theorem c10_case_insensitive :
    (∀ t u : String, t.data.map lowerChar = u.data.map lowerChar →
        calculate_word_stats t = calculate_word_stats u)
    ∧ ∀ t : String,
        calculate_word_stats (String.mk (t.data.map lowerChar)) = calculate_word_stats t := by
  have key : ∀ t u : String, t.data.map lowerChar = u.data.map lowerChar →
      calculate_word_stats t = calculate_word_stats u := by
    intro t u h
    unfold calculate_word_stats
    rw [h]
  exact ⟨key, fun t => key _ t (map_lowerChar_idem t.data)⟩

theorem c10_case_insensitive_witness :
    calculate_word_stats "the Dog RAN" = calculate_word_stats "The dOg ran" :=
  c10_case_insensitive.1 "the Dog RAN" "The dOg ran" (by decide)

theorem pathLe_cons (a b : Char) (as bs : List Char) :
    pathLe (a :: as) (b :: bs) =
      if a < b then true else if b < a then false else pathLe as bs := rfl

theorem pathLe_total (a b : List Char) : pathLe a b = true ∨ pathLe b a = true := by
  induction a generalizing b with
  | nil => left; rfl
  | cons x as ih =>
    cases b with
    | nil => right; rfl
    | cons y bs =>
      rcases lt_trichotomy x y with h | h | h
      · left; simp [pathLe, h]
      · subst h; simpa [pathLe] using ih bs
      · right; simp [pathLe, h]

theorem pathLe_antisymm (a b : List Char) (h1 : pathLe a b = true) (h2 : pathLe b a = true) :
    a = b := by
  induction a generalizing b with
  | nil => cases b with
    | nil => rfl
    | cons y bs => simp [pathLe] at h2
  | cons x as ih =>
    cases b with
    | nil => simp [pathLe] at h1
    | cons y bs =>
      rcases lt_trichotomy x y with h | h | h
      · simp [pathLe, h, lt_asymm h] at h2
      · subst h
        simp only [pathLe, lt_irrefl, if_false] at h1 h2
        rw [ih bs h1 h2]
      · simp [pathLe, h, lt_asymm h] at h1

theorem pathLe_trans (a b c : List Char) (h1 : pathLe a b = true) (h2 : pathLe b c = true) :
    pathLe a c = true := by
  induction a generalizing b c with
  | nil => rfl
  | cons x as ih =>
    cases b with
    | nil => simp [pathLe] at h1
    | cons y bs =>
      cases c with
      | nil => simp [pathLe] at h2
      | cons z cs =>
        rw [pathLe_cons] at h1 h2 ⊢
        rcases lt_trichotomy x y with hxy | hxy | hxy
        · rw [if_pos hxy] at h1
          rcases lt_trichotomy y z with hyz | hyz | hyz
          · rw [if_pos (lt_trans hxy hyz)]
          · subst hyz; rw [if_pos hxy]
          · rw [if_neg (lt_asymm hyz), if_pos hyz] at h2; exact absurd h2 (by simp)
        · subst hxy
          rw [if_neg (lt_irrefl x), if_neg (lt_irrefl x)] at h1
          rcases lt_trichotomy x z with hyz | hyz | hyz
          · rw [if_pos hyz]
          · subst hyz
            rw [if_neg (lt_irrefl x), if_neg (lt_irrefl x)] at h2 ⊢
            exact ih bs cs h1 h2
          · rw [if_neg (lt_asymm hyz), if_pos hyz] at h2; exact absurd h2 (by simp)
        · rw [if_neg (lt_asymm hxy), if_pos hxy] at h1; exact absurd h1 (by simp)

theorem componentLe_antisymm (a b : String) (h1 : componentLe a b = true)
    (h2 : componentLe b a = true) : a = b :=
  congrArg String.mk (pathLe_antisymm a.data b.data h1 h2)

theorem partsLe_total (x y : List String) : partsLe x y = true ∨ partsLe y x = true := by
  induction x generalizing y with
  | nil => left; rfl
  | cons a as ih =>
    cases y with
    | nil => right; rfl
    | cons b bs =>
      by_cases hab : a = b
      · subst hab
        rcases ih bs with h | h
        · left
          show (if a = a then partsLe as bs else componentLe a a) = true
          rw [if_pos rfl]
          exact h
        · right
          show (if a = a then partsLe bs as else componentLe a a) = true
          rw [if_pos rfl]
          exact h
      · rcases pathLe_total a.data b.data with h | h
        · left
          show (if a = b then partsLe as bs else componentLe a b) = true
          rw [if_neg hab]
          exact h
        · right
          show (if b = a then partsLe bs as else componentLe b a) = true
          rw [if_neg (fun hh => hab hh.symm)]
          exact h

theorem partsLe_antisymm (x y : List String) (h1 : partsLe x y = true)
    (h2 : partsLe y x = true) : x = y := by
  induction x generalizing y with
  | nil =>
    cases y with
    | nil => rfl
    | cons b bs => exact absurd h2 (by simp [partsLe])
  | cons a as ih =>
    cases y with
    | nil => exact absurd h1 (by simp [partsLe])
    | cons b bs =>
      by_cases hab : a = b
      · subst hab
        have h1' : partsLe as bs = true := by
          have h' : (if a = a then partsLe as bs else componentLe a a) = true := h1
          rwa [if_pos rfl] at h'
        have h2' : partsLe bs as = true := by
          have h' : (if a = a then partsLe bs as else componentLe a a) = true := h2
          rwa [if_pos rfl] at h'
        rw [ih bs h1' h2']
      · have h1' : componentLe a b = true := by
          have h' : (if a = b then partsLe as bs else componentLe a b) = true := h1
          rwa [if_neg hab] at h'
        have h2' : componentLe b a = true := by
          have h' : (if b = a then partsLe bs as else componentLe b a) = true := h2
          rwa [if_neg (fun hh => hab hh.symm)] at h'
        exact absurd (componentLe_antisymm a b h1' h2') hab

theorem partsLe_trans (x y z : List String) (h1 : partsLe x y = true)
    (h2 : partsLe y z = true) : partsLe x z = true := by
  induction x generalizing y z with
  | nil => rfl
  | cons a as ih =>
    cases y with
    | nil => exact absurd h1 (by simp [partsLe])
    | cons b bs =>
      cases z with
      | nil => exact absurd h2 (by simp [partsLe])
      | cons c cs =>
        by_cases hab : a = b
        · subst hab
          have h1' : partsLe as bs = true := by
            have h' : (if a = a then partsLe as bs else componentLe a a) = true := h1
            rwa [if_pos rfl] at h'
          by_cases hac : a = c
          · subst hac
            have h2' : partsLe bs cs = true := by
              have h' : (if a = a then partsLe bs cs else componentLe a a) = true := h2
              rwa [if_pos rfl] at h'
            show (if a = a then partsLe as cs else componentLe a a) = true
            rw [if_pos rfl]
            exact ih bs cs h1' h2'
          · have h2' : componentLe a c = true := by
              have h' : (if a = c then partsLe bs cs else componentLe a c) = true := h2
              rwa [if_neg hac] at h'
            show (if a = c then partsLe as cs else componentLe a c) = true
            rw [if_neg hac]
            exact h2'
        · have h1' : componentLe a b = true := by
            have h' : (if a = b then partsLe as bs else componentLe a b) = true := h1
            rwa [if_neg hab] at h'
          by_cases hbc : b = c
          · subst hbc
            show (if a = b then partsLe as cs else componentLe a b) = true
            rw [if_neg hab]
            exact h1'
          · have h2' : componentLe b c = true := by
              have h' : (if b = c then partsLe bs cs else componentLe b c) = true := h2
              rwa [if_neg hbc] at h'
            by_cases hac : a = c
            · subst hac
              exact absurd (componentLe_antisymm a b h1' h2') hab
            · show (if a = c then partsLe as cs else componentLe a c) = true
              rw [if_neg hac]
              exact pathLe_trans a.data b.data c.data h1' h2'

/-- Claim C2: `build_corpus` produces the concatenation of the files'
contents in sorted path order - `pathlib` paths sort by their component
tuples - with one newline after each content (including the last); the
corpus text is therefore invariant under permutations of the input path
list, and on `["b.txt" -> "B", "a.txt" -> "A"]` given in that order the
corpus text is `"A\nB\n"`.  The last conjunct pins the component order on
multi-component paths: `a/b` sorts before `a.c/d`, although the raw path
strings compare the other way. -/
theorem c2_build_corpus :
    (∀ (readText : List String → String) (files files' : List (List String)) (folder : String),
        files.Perm files' →
        build_corpus readText files folder = build_corpus readText files' folder)
    ∧ (∀ (readText : List String → String) (files : List (List String)) (folder : String),
        ∃ s : List (List String), s.Perm files ∧ List.Sorted pathPartsLe s ∧
          build_corpus readText files folder =
            (folder ++ "/corpus.txt", corpusConcat readText s))
    ∧ build_corpus exampleRead [["b.txt"], ["a.txt"]] "out/MC" =
        ("out/MC/corpus.txt", "A\nB\n")
    ∧ List.insertionSort pathPartsLe [["a.c", "d"], ["a", "b"]] =
        [["a", "b"], ["a.c", "d"]] := by
  haveI hTot : IsTotal (List String) pathPartsLe := ⟨partsLe_total⟩
  haveI hTrans : IsTrans (List String) pathPartsLe := ⟨partsLe_trans⟩
  haveI hAnti : IsAntisymm (List String) pathPartsLe := ⟨partsLe_antisymm⟩
  refine ⟨?_, ?_, by decide, by decide⟩
  · intro r files files' folder hperm
    have hsort : List.insertionSort pathPartsLe files = List.insertionSort pathPartsLe files' :=
      List.eq_of_perm_of_sorted
        ((List.perm_insertionSort _ _).trans
          (hperm.trans (List.perm_insertionSort pathPartsLe files').symm))
        (List.sorted_insertionSort _ _) (List.sorted_insertionSort _ _)
    unfold build_corpus
    rw [hsort]
  · intro r files folder
    exact ⟨List.insertionSort pathPartsLe files, List.perm_insertionSort _ _,
      List.sorted_insertionSort _ _, rfl⟩

theorem c2_build_corpus_witness :
    build_corpus exampleRead [["b.txt"], ["a.txt"]] "d" =
      build_corpus exampleRead [["a.txt"], ["b.txt"]] "d" :=
  c2_build_corpus.1 exampleRead _ _ "d" (List.Perm.swap ["a.txt"] ["b.txt"] [])

theorem mem_stripEnds {c : Char} {l : List Char} (h : c ∈ stripEnds l) : c ∈ l := by
  unfold stripEnds at h
  rw [List.mem_reverse] at h
  have h2 := (List.dropWhile_sublist (l := (l.dropWhile isPySpace).reverse) isPySpace).subset h
  rw [List.mem_reverse] at h2
  exact (List.dropWhile_sublist isPySpace).subset h2

/-- Claim C6: `sanitize_filename` removes the reserved characters
`\ / : * ? " < > |` and trims surrounding whitespace, returning `"untitled"`
exactly when the cleaned result is empty; hence its output never contains a
reserved character, an all-reserved input yields `"untitled"`, and
`"Lose Yourself"` is returned unchanged. -/
theorem c6_sanitize_filename (name : List Char) :
    (∀ c ∈ sanitize_filename name, isReservedFileChar c = false)
    ∧ ((∀ c ∈ name, isReservedFileChar c = true) → sanitize_filename name = "untitled".data)
    ∧ sanitize_filename ("Lose Yourself".data) = "Lose Yourself".data := by
  refine ⟨?_, ?_, by decide⟩
  · intro c hc
    unfold sanitize_filename at hc
    split at hc
    · revert c hc
      decide
    · have h1 := mem_stripEnds hc
      have h2 := (List.mem_filter.mp h1).2
      simpa using h2
  · intro hall
    have hnil : name.filter (fun c => !isReservedFileChar c) = [] := by
      rw [List.filter_eq_nil_iff]
      intro c hc
      simp [hall c hc]
    unfold sanitize_filename
    rw [hnil]
    rfl

theorem c6_sanitize_filename_witness :
    sanitize_filename (":*?".data) = "untitled".data :=
  (c6_sanitize_filename (":*?".data)).2.1 (by decide)

theorem songsWrites_eq (folder : String) (songs : List Song) :
    songsWrites folder songs =
      (songs.filter hasLyrics).map (fun s => (songFilePath folder s, songFileContent s)) := by
  induction songs with
  | nil => rfl
  | cons s rest ih =>
    cases hl : s.lyrics with
    | none =>
      have hs : hasLyrics s = false := by simp [hasLyrics, hl]
      simp [songsWrites, hl, List.filter_cons, hs, ih]
    | some l =>
      by_cases he : l = ""
      · have hs : hasLyrics s = false := by simp [hasLyrics, hl, he]
        simp [songsWrites, hl, he, List.filter_cons, hs, ih]
      · have hs : hasLyrics s = true := by simp [hasLyrics, hl, he]
        have hcont : songFileContent s = String.mk (sanitize_lyrics l.data) := by
          simp [songFileContent, hl]
        simp [songsWrites, hl, he, List.filter_cons, hs, ih, hcont]

/-- Claim C5: for every nonempty song list yielded by the retrieval adapter,
`download_lyrics` skips songs with empty or absent lyrics without writing a
file (the write trace contains exactly one write per song with lyrics, in
processing order), raises the "no lyrics saved" error exactly when zero
files were written, and otherwise returns the written file paths in
processing order. -/
theorem c5_download_lyrics (output_dir artist_name : String) (songs : List Song)
    (hne : songs ≠ []) :
    ((download_lyrics output_dir artist_name (some songs)).2 = Except.error noLyricsMsg
        ↔ songs.filter hasLyrics = [])
    ∧ (songs.filter hasLyrics ≠ [] →
        (download_lyrics output_dir artist_name (some songs)).2 =
          Except.ok ((songs.filter hasLyrics).map
            (songFilePath (output_dir ++ "/" ++ String.mk (sanitize_filename artist_name.data)))))
    ∧ (download_lyrics output_dir artist_name (some songs)).1 =
        FsEvent.mkdirP (output_dir ++ "/" ++ String.mk (sanitize_filename artist_name.data)) ::
          (songs.filter hasLyrics).map (fun s =>
            FsEvent.writeText
              (songFilePath (output_dir ++ "/" ++ String.mk (sanitize_filename artist_name.data))
                s)
              (songFileContent s)) := by
  have hempty : songs.isEmpty = false := by
    cases songs with
    | nil => exact absurd rfl hne
    | cons s rest => rfl
  simp only [download_lyrics, hempty, Bool.false_eq_true, if_false, songsWrites_eq]
  refine ⟨?_, ?_, ?_⟩
  · constructor
    · intro h
      by_cases hf : songs.filter hasLyrics = []
      · exact hf
      · rw [List.isEmpty_eq_false.mpr (by simpa using hf)] at h
        simp at h
    · intro hf
      rw [hf]
      rfl
  · intro hf
    rw [List.isEmpty_eq_false.mpr (by simpa using hf)]
    simp [List.map_map, Function.comp]
  · simp [List.map_map, Function.comp]

theorem c5_download_lyrics_witness :
    (download_lyrics "Lyrics" "MC" (some [⟨"A Song", some "la la"⟩, ⟨"Empty", none⟩])).2 =
      Except.ok ["Lyrics/MC/A Song.txt"] := by
  have h := (c5_download_lyrics "Lyrics" "MC" [⟨"A Song", some "la la"⟩, ⟨"Empty", none⟩]
    (by decide)).2.1 (by decide)
  rw [h]
  decide

/-- Counterexample to claim C8 as stated: when the adapter returns no artist,
`download_lyrics` does fail with the "no results" error, but the file-system
trace of the failed run is not empty - the artist directory has already been
created, because the generator body of `iter_songs` (which performs the
no-results check) only runs once the `for` loop pulls the first song, after
the `mkdir` at line 201. -/
theorem c8_no_results_counterexample :
    (download_lyrics "Lyrics" "MC" none).2 = Except.error (noSongsMsg "MC")
    ∧ (download_lyrics "Lyrics" "MC" none).1 = [FsEvent.mkdirP "Lyrics/MC"]
    ∧ [FsEvent.mkdirP "Lyrics/MC"] ≠ ([] : List FsEvent) := by
  refine ⟨by decide, by decide, by decide⟩

/-- Claim C8, amended: when the adapter returns no artist or an artist with
no songs, `download_lyrics` fails with the "no results" error and writes no
lyrics file, but the artist subfolder has already been ensured: the trace of
the failed run consists exactly of the recursive directory creation (the
generator body of `iter_songs`, which raises the error, only runs once the
`for` loop requests the first song, after the `mkdir`). -/
theorem c8_no_results_amended (output_dir artist_name : String)
    (sr : Option (List Song)) (h : sr = none ∨ sr = some []) :
    (download_lyrics output_dir artist_name sr).2 = Except.error (noSongsMsg artist_name)
    ∧ (download_lyrics output_dir artist_name sr).1 =
        [FsEvent.mkdirP (output_dir ++ "/" ++ String.mk (sanitize_filename artist_name.data))] := by
  rcases h with h | h <;> subst h <;> exact ⟨rfl, rfl⟩

theorem c8_no_results_witness :
    (download_lyrics "Lyrics" "MC" (some [])).2 = Except.error (noSongsMsg "MC")
    ∧ (download_lyrics "Lyrics" "MC" (some [])).1 = [FsEvent.mkdirP "Lyrics/MC"] := by
  have h := c8_no_results_amended "Lyrics" "MC" (some []) (Or.inr rfl)
  exact ⟨h.1, by rw [h.2]; decide⟩

theorem rbAux_closes (b : List Char) (c : List Char) (buf : List Char)
    (hb : ∀ x ∈ b, x ≠ ']' ∧ x ≠ '\n') :
    rbAux (some buf) (b ++ ']' :: c) = rbAux none c := by
  induction b generalizing buf with
  | nil => rfl
  | cons x bs ih =>
    have hx := hb x (List.mem_cons_self x bs)
    rw [List.cons_append]
    show rbAux (some buf) (x :: (bs ++ ']' :: c)) = rbAux none c
    simp only [rbAux, if_neg hx.1, if_neg hx.2]
    exact ih (x :: buf) (fun y hy => hb y (List.mem_cons_of_mem x hy))

/-- Counterexample to claim C4 as stated: Python's non-greedy `.` does not
match a newline, so a bracketed span that contains a newline before its
first `]` is NOT removed by `sanitize_lyrics`; the claim's reading (remove
every `[`-to-first-`]` substring) gives a different result on `"[a\nb]"`. -/
theorem c4_sanitize_lyrics_counterexample :
    sanitize_lyrics ("[a\nb]".data) = "[a\nb]".data
    ∧ sanitizeLyricsClaim ("[a\nb]".data) = []
    ∧ sanitize_lyrics ("[a\nb]".data) ≠ sanitizeLyricsClaim ("[a\nb]".data) :=
  ⟨by decide, by decide, by decide⟩

/-- Claim C4, amended: `sanitize_lyrics` removes every substring delimited by
`[` and `]` inclusive that lies within one line - matching stops at the first
`]` after each `[`, nested brackets are not specially handled, and a span
whose first `]` comes after a newline is left in place (Python's `.` does not
match a newline).  It then removes every straight apostrophe, straight double
quote and right curly quote from the remaining text; in particular
`"[Chorus]\nHello 'world'"` maps to `"\nHello world"`. -/
theorem c4_sanitize_lyrics_amended :
    sanitize_lyrics (("[Chorus]\nHello " ++ sqStr ++ "world" ++ sqStr).data) =
      ("\nHello world").data
    ∧ (∀ b c : List Char, (∀ x ∈ b, x ≠ ']' ∧ x ≠ '\n') →
        removeBrackets ('[' :: b ++ ']' :: c) = removeBrackets c)
    ∧ (∀ t : List Char, ∀ c ∈ sanitize_lyrics t, isQuoteChar c = false) := by
  refine ⟨by decide, ?_, ?_⟩
  · intro b c hb
    show rbAux none ('[' :: (b ++ ']' :: c)) = rbAux none c
    simp only [rbAux, if_pos rfl]
    exact rbAux_closes b c [] hb
  · intro t c hc
    have h := (List.mem_filter.mp hc).2
    simpa using h

theorem c4_sanitize_lyrics_witness :
    removeBrackets ('[' :: "Verse 1".data ++ ']' :: " yo".data) = removeBrackets (" yo".data) :=
  c4_sanitize_lyrics_amended.2.1 ("Verse 1".data) (" yo".data) (by decide)

theorem noClose_append (pre tail : List Char) (hpre : ∀ x ∈ pre, stopChar x = false)
    (htail : noClose tail = true) : noClose (pre ++ tail) = true := by
  induction pre with
  | nil => exact htail
  | cons x xs ih =>
    have hx := hpre x (List.mem_cons_self x xs)
    unfold noClose at htail ⊢
    rw [List.cons_append, List.dropWhile_cons]
    simp only [hx]
    exact ih (fun y hy => hpre y (List.mem_cons_of_mem x hy))

theorem bracketsBlocked_cons (c : Char) (rest : List Char) :
    bracketsBlocked (c :: rest) =
      ((if c = '[' then noClose rest else true) && bracketsBlocked rest) := rfl

theorem noClose_cons (c : Char) (rest : List Char) :
    noClose (c :: rest) =
      if stopChar c then ((some c : Option Char) != some ']') else noClose rest := by
  unfold noClose
  rw [List.dropWhile_cons]
  cases h : stopChar c <;> simp [h]

theorem bracketsBlocked_append (pre tail : List Char)
    (hpre : ∀ x ∈ pre, stopChar x = false)
    (hnc : noClose tail = true) (hb : bracketsBlocked tail = true) :
    bracketsBlocked (pre ++ tail) = true := by
  induction pre with
  | nil => exact hb
  | cons x xs ih =>
    have hx := hpre x (List.mem_cons_self x xs)
    rw [List.cons_append, bracketsBlocked_cons, Bool.and_eq_true]
    refine ⟨?_, ih (fun y hy => hpre y (List.mem_cons_of_mem x hy))⟩
    by_cases hxl : x = '['
    · rw [if_pos hxl]
      exact noClose_append xs tail (fun y hy => hpre y (List.mem_cons_of_mem x hy)) hnc
    · rw [if_neg hxl]

theorem rbAux_blocked (l : List Char) :
    ∀ buf : List Char, (∀ x ∈ buf, stopChar x = false) →
      bracketsBlocked (rbAux (some buf) l) = true ∧ bracketsBlocked (rbAux none l) = true := by
  induction l with
  | nil =>
    intro buf hbuf
    refine ⟨?_, rfl⟩
    show bracketsBlocked ('[' :: buf.reverse) = true
    have hall : ∀ x ∈ ('[' :: buf.reverse), stopChar x = false := by
      intro x hx
      rcases List.mem_cons.mp hx with h | h
      · subst h; rfl
      · exact hbuf x (List.mem_reverse.mp h)
    simpa using bracketsBlocked_append ('[' :: buf.reverse) [] hall rfl rfl
  | cons c rest ih =>
    intro buf hbuf
    constructor
    · by_cases hc1 : c = ']'
      · subst hc1
        show bracketsBlocked (rbAux (some buf) (']' :: rest)) = true
        simp only [rbAux, if_pos rfl]
        exact (ih [] (by intro x hx; cases hx)).2
      · by_cases hc2 : c = '\n'
        · subst hc2
          show bracketsBlocked (rbAux (some buf) ('\n' :: rest)) = true
          simp only [rbAux, if_neg (by decide : ¬ ('\n' : Char) = ']'), if_pos rfl]
          have hall : ∀ x ∈ ('[' :: buf.reverse), stopChar x = false := by
            intro x hx
            rcases List.mem_cons.mp hx with h | h
            · subst h; rfl
            · exact hbuf x (List.mem_reverse.mp h)
          refine bracketsBlocked_append ('[' :: buf.reverse) ('\n' :: rbAux none rest) hall ?_ ?_
          · rw [noClose_cons]
            rfl
          · rw [bracketsBlocked_cons, Bool.and_eq_true]
            exact ⟨by rw [if_neg (by decide : ¬ ('\n' : Char) = '[')], 
              (ih [] (by intro x hx; cases hx)).2⟩
        · show bracketsBlocked (rbAux (some buf) (c :: rest)) = true
          simp only [rbAux, if_neg hc1, if_neg hc2]
          refine (ih (c :: buf) ?_).1
          intro x hx
          rcases List.mem_cons.mp hx with h | h
          · subst h; simp [stopChar, hc1, hc2]
          · exact hbuf x h
    · by_cases hc : c = '['
      · subst hc
        show bracketsBlocked (rbAux (some []) rest) = true
        exact (ih [] (by intro x hx; cases hx)).1
      · show bracketsBlocked (rbAux none (c :: rest)) = true
        simp only [rbAux, if_neg hc]
        rw [bracketsBlocked_cons, Bool.and_eq_true]
        exact ⟨by rw [if_neg hc], (ih [] (by intro x hx; cases hx)).2⟩

theorem rbAux_id_of_blocked (l : List Char) :
    (bracketsBlocked l = true → rbAux none l = l)
    ∧ (∀ buf : List Char, noClose l = true → bracketsBlocked l = true →
        rbAux (some buf) l = '[' :: buf.reverse ++ l) := by
  induction l with
  | nil =>
    refine ⟨fun _ => rfl, fun buf _ _ => ?_⟩
    show '[' :: buf.reverse = '[' :: buf.reverse ++ []
    rw [List.append_nil]
  | cons c rest ih =>
    constructor
    · intro hb
      rw [bracketsBlocked_cons, Bool.and_eq_true] at hb
      obtain ⟨hb1, hb2⟩ := hb
      by_cases hc : c = '['
      · subst hc
        rw [if_pos rfl] at hb1
        show rbAux (some []) rest = '[' :: rest
        simpa using ih.2 [] hb1 hb2
      · show rbAux none (c :: rest) = c :: rest
        simp only [rbAux, if_neg hc]
        rw [ih.1 hb2]
    · intro buf hnc hb
      rw [bracketsBlocked_cons, Bool.and_eq_true] at hb
      obtain ⟨hb1, hb2⟩ := hb
      rw [noClose_cons] at hnc
      by_cases hstop : stopChar c = true
      · rw [if_pos hstop] at hnc
        have hc1 : c ≠ ']' := by
          intro h
          subst h
          exact absurd hnc (by decide)
        have hcn : c = '\n' := by
          have h' := hstop
          simp only [stopChar, Bool.or_eq_true, beq_iff_eq] at h'
          rcases h' with h | h
          · exact absurd h hc1
          · exact h
        subst hcn
        show rbAux (some buf) ('\n' :: rest) = '[' :: buf.reverse ++ '\n' :: rest
        simp only [rbAux, if_neg (by decide : ¬ ('\n' : Char) = ']'), if_pos rfl]
        rw [ih.1 hb2]
        simp
      · rw [if_neg hstop] at hnc
        have hc1 : c ≠ ']' := by
          intro h; subst h; exact hstop rfl
        have hc2 : c ≠ '\n' := by
          intro h; subst h; exact hstop rfl
        show rbAux (some buf) (c :: rest) = '[' :: buf.reverse ++ c :: rest
        simp only [rbAux, if_neg hc1, if_neg hc2]
        rw [ih.2 (c :: buf) hnc hb2]
        simp

theorem noClose_filter (q : Char → Bool) (hq : ∀ c, stopChar c = true → q c = true)
    (l : List Char) (h : noClose l = true) : noClose (l.filter q) = true := by
  induction l with
  | nil => exact h
  | cons c rest ih =>
    rw [noClose_cons] at h
    by_cases hstop : stopChar c = true
    · rw [if_pos hstop] at h
      rw [List.filter_cons, if_pos (hq c hstop), noClose_cons, if_pos hstop]
      exact h
    · rw [if_neg hstop] at h
      rw [List.filter_cons]
      split
      · rw [noClose_cons, if_neg hstop]
        exact ih h
      · exact ih h

theorem bracketsBlocked_filter (q : Char → Bool)
    (hq : ∀ c, stopChar c = true → q c = true)
    (l : List Char) (h : bracketsBlocked l = true) :
    bracketsBlocked (l.filter q) = true := by
  induction l with
  | nil => exact h
  | cons c rest ih =>
    rw [bracketsBlocked_cons, Bool.and_eq_true] at h
    obtain ⟨h1, h2⟩ := h
    rw [List.filter_cons]
    split
    · rw [bracketsBlocked_cons, Bool.and_eq_true]
      refine ⟨?_, ih h2⟩
      by_cases hc : c = '['
      · rw [if_pos hc]
        rw [if_pos hc] at h1
        exact noClose_filter q hq rest h1
      · rw [if_neg hc]
    · exact ih h2

/-- Claim C9: `sanitize_lyrics` is idempotent.  The first pass leaves only
"blocked" bracket spans (every remaining `[` has no `]` before the next
newline or the end of the text); quote removal preserves blockedness, and the
bracket scanner is the identity on blocked texts, so a second pass changes
nothing. -/
theorem c9_sanitize_lyrics_idempotent (t : List Char) :
    sanitize_lyrics (sanitize_lyrics t) = sanitize_lyrics t := by
  have hq : ∀ c : Char, stopChar c = true → (!isQuoteChar c) = true := by
    intro c hc
    simp only [stopChar, Bool.or_eq_true, beq_iff_eq] at hc
    rcases hc with h | h
    · rw [h]; rfl
    · rw [h]; rfl
  have hb : bracketsBlocked (rbAux none t) = true :=
    (rbAux_blocked t [] (by intro x hx; cases hx)).2
  have hbf : bracketsBlocked ((rbAux none t).filter (fun c => !isQuoteChar c)) = true :=
    bracketsBlocked_filter _ hq _ hb
  show ((rbAux none ((rbAux none t).filter (fun c => !isQuoteChar c))).filter
      (fun c => !isQuoteChar c)) = (rbAux none t).filter (fun c => !isQuoteChar c)
  rw [(rbAux_id_of_blocked _).1 hbf]
  simp [List.filter_filter]

theorem dropWhile_head_not {p : Char → Bool} {l : List Char} {c : Char}
    (h : (l.dropWhile p).head? = some c) : p c = false := by
  induction l with
  | nil => simp [List.dropWhile] at h
  | cons x xs ih =>
    rw [List.dropWhile_cons] at h
    split at h
    · exact ih h
    · next hx =>
      simp at h
      subst h
      simpa using hx

theorem apostOk_tail (p : Option Char) (c : Char) (rest : List Char)
    (h : apostOk p (c :: rest) = true) : apostOk (some c) rest = true := by
  unfold apostOk at h
  split at h
  · simp only [Bool.and_eq_true] at h
    exact h.2
  · exact h

theorem apostOk_cons_apost (p : Option Char) (rest : List Char)
    (h : apostOk p (apostrophe :: rest) = true) :
    (∃ d, p = some d ∧ isAsciiLetter d = true)
    ∧ (∃ d, rest.head? = some d ∧ isAsciiLetter d = true)
    ∧ apostOk (some apostrophe) rest = true := by
  unfold apostOk at h
  rw [if_pos rfl] at h
  simp only [Bool.and_eq_true] at h
  obtain ⟨⟨h1, h2⟩, h3⟩ := h
  refine ⟨?_, ?_, h3⟩
  · cases hp : p with
    | none => rw [hp] at h1; exact absurd h1 (by decide)
    | some d => rw [hp] at h1; exact ⟨d, rfl, h1⟩
  · cases hr : rest.head? with
    | none => rw [hr] at h2; exact absurd h2 (by decide)
    | some d => rw [hr] at h2; exact ⟨d, rfl, h2⟩

theorem apostOk_append (xs : List Char) (p : Option Char) (ys : List Char)
    (h : apostOk p (xs ++ ys) = true) : apostOk (lastOpt p xs) ys = true := by
  induction xs generalizing p with
  | nil => exact h
  | cons x xs ih =>
    rw [List.cons_append] at h
    exact ih (some x) (apostOk_tail p x (xs ++ ys) h)

theorem lastOpt_eq_charAt (xs : List Char) (p : Option Char) (h : xs ≠ []) :
    lastOpt p xs = charAt? xs (xs.length - 1) := by
  induction xs generalizing p with
  | nil => exact absurd rfl h
  | cons x xs ih =>
    cases xs with
    | nil => rfl
    | cons y ys =>
      show lastOpt (some x) (y :: ys) = charAt? (x :: y :: ys) ((y :: ys).length)
      rw [ih (some x) (by simp)]
      rfl

theorem lastOpt_mem (xs : List Char) (p : Option Char) (h : xs ≠ []) :
    ∃ d, lastOpt p xs = some d ∧ d ∈ xs := by
  induction xs generalizing p with
  | nil => exact absurd rfl h
  | cons x xs ih =>
    cases xs with
    | nil => exact ⟨x, rfl, by simp⟩
    | cons y ys =>
      obtain ⟨d, hd, hmem⟩ := ih (some x) (by simp)
      exact ⟨d, hd, List.mem_cons_of_mem x hmem⟩

theorem apostOk_run_last (run : List Char) (p : Option Char) (rs : List Char)
    (h : apostOk p (run ++ rs) = true) (hrun : run ≠ [])
    (hlast : lastOpt p run = some apostrophe) :
    ∃ d, rs.head? = some d ∧ isAsciiLetter d = true := by
  induction run generalizing p with
  | nil => exact absurd rfl hrun
  | cons x xs ih =>
    cases xs with
    | nil =>
      have hx : x = apostrophe := by
        have : (some x : Option Char) = some apostrophe := hlast
        exact Option.some.inj this
      subst hx
      obtain ⟨-, hnext, -⟩ := apostOk_cons_apost p rs (by simpa using h)
      exact hnext
    | cons y ys =>
      have h' := apostOk_tail p x ((y :: ys) ++ rs) (by simpa using h)
      exact ih (some x) h' (by simp) hlast

theorem charAt_append_right (a b : List Char) : charAt? (a ++ b) a.length = b.head? := by
  unfold charAt?
  rw [List.drop_left]

theorem pickEndW_eq_length (w : Char → Bool) (run rs : List Char) (hne : run ≠ [])
    (h : boundaryOkW w run rs run.length = true) : pickEndW w run rs = run.length := by
  unfold pickEndW
  cases hr : run.length with
  | zero => exact absurd (List.length_eq_zero.mp hr) hne
  | succ m =>
    rw [hr] at h
    unfold pickEndAuxW
    rw [if_pos h]

theorem isAsciiLetter_isWordChar (c : Char) (h : isAsciiLetter c = true) :
    isWordChar c = true := by
  simp [isWordChar, h]

theorem findTokensWF_eq_maximalRunsF (w : Char → Bool)
    (hletw : ∀ c : Char, isAsciiLetter c = true → w c = true) (fuel : Nat) :
    ∀ (l : List Char) (p : Option Char),
      l.length ≤ fuel →
      (∀ c ∈ l, w c = true → isAsciiLetter c = true) →
      apostOk p l = true →
      (∀ c, l.head? = some c → isTokChar c = true → isWordOpt w p = false) →
      findTokensWF w fuel p l = maximalRunsF fuel l := by
  induction fuel with
  | zero =>
    intro l p hlen _ _ _
    have hnil : l = [] := List.length_eq_zero.mp (Nat.le_zero.mp hlen)
    subst hnil
    rfl
  | succ fuel ih =>
    intro l p hlen hgood hap hinv
    cases l with
    | nil => rfl
    | cons c rest =>
      by_cases htok : isTokChar c = true
      · have hwp : isWordOpt w p = false := hinv c rfl htok
        have hlet : isAsciiLetter c = true := by
          by_cases hca : c = apostrophe
          · subst hca
            obtain ⟨d, hd, hdl⟩ := (apostOk_cons_apost p rest hap).1
            rw [hd] at hwp
            have hw : w d = true := hletw d hdl
            simp [isWordOpt, hw] at hwp
          · have h' := htok
            simp only [isTokChar, Bool.or_eq_true, beq_iff_eq] at h'
            rcases h' with h | h
            · exact h
            · exact absurd h hca
        have hwc : w c = true := hletw c hlet
        have hguard : (isTokChar c && (isWordOpt w p != w c)) = true := by
          rw [htok, hwp, hwc]
          rfl
        set run := (c :: rest).takeWhile isTokChar with hrun
        set rs := (c :: rest).dropWhile isTokChar with hrs
        have happ : run ++ rs = c :: rest := List.takeWhile_append_dropWhile _ _
        have hrun_ne : run ≠ [] := by
          rw [hrun, List.takeWhile_cons, if_pos htok]
          exact List.cons_ne_nil _ _
        have hrs_head : ∀ d, rs.head? = some d → isTokChar d = false := by
          intro d hd
          exact dropWhile_head_not hd
        have hrun_tok : ∀ d ∈ run, isTokChar d = true := by
          intro d hd
          exact List.mem_takeWhile_imp hd
        have hgood_rs : ∀ d ∈ rs, w d = true → isAsciiLetter d = true := by
          intro d hd
          exact hgood d ((List.dropWhile_sublist _).subset hd)
        obtain ⟨lastc, hlastc, hlast_mem⟩ := lastOpt_mem run p hrun_ne
        have hap' : apostOk p (run ++ rs) = true := by
          rw [happ]
          exact hap
        have hlast_letter : isAsciiLetter lastc = true := by
          by_cases hla : lastc = apostrophe
          · subst hla
            obtain ⟨d, hd, hdl⟩ := apostOk_run_last run p rs hap' hrun_ne hlastc
            have htd : isTokChar d = true := by simp [isTokChar, hdl]
            rw [hrs_head d hd] at htd
            exact absurd htd (by decide)
          · have h' := hrun_tok lastc hlast_mem
            simp only [isTokChar, Bool.or_eq_true, beq_iff_eq] at h'
            rcases h' with h | h
            · exact h
            · exact absurd h hla
        have hcharAt_last : charAt? run (run.length - 1) = some lastc := by
          rw [← lastOpt_eq_charAt run p hrun_ne]
          exact hlastc
        have hbound : boundaryOkW w run rs run.length = true := by
          unfold boundaryOkW
          rw [hcharAt_last, charAt_append_right]
          have hleft : isWordOpt w (some lastc) = true := by
            show w lastc = true
            exact hletw lastc hlast_letter
          have hright : isWordOpt w rs.head? = false := by
            cases hh : rs.head? with
            | none => rfl
            | some d =>
              have hdmem : d ∈ rs := List.mem_of_mem_head? (by simp [hh])
              show w d = false
              cases hw : w d with
              | false => rfl
              | true =>
                have hdl := hgood_rs d hdmem hw
                have htd : isTokChar d = true := by simp [isTokChar, hdl]
                rw [hrs_head d hh] at htd
                exact absurd htd (by decide)
          rw [hleft, hright]
          rfl
        have hpick : pickEndW w run rs = run.length := pickEndW_eq_length w run rs hrun_ne hbound
        have hlen_run : 0 < run.length := List.length_pos.mpr hrun_ne
        have hsum : run.length + rs.length = rest.length + 1 := by
          have h' := congrArg List.length happ
          simpa using h'
        have hlen' : rest.length + 1 ≤ fuel + 1 := by simpa using hlen
        simp only [findTokensWF, maximalRunsF]
        rw [if_pos hguard, if_pos htok]
        rw [hpick, if_pos hlen_run, List.take_length, List.drop_length, List.nil_append,
          hcharAt_last]
        refine congrArg (fun x => run :: x) ?_
        apply ih rs (some lastc) (by omega) hgood_rs
        · have h' := apostOk_append run p rs hap'
          rw [hlastc] at h'
          exact h'
        · intro d hd htokd
          rw [hrs_head d hd] at htokd
          exact absurd htokd (by decide)
      · have htokf : isTokChar c = false := by simpa using htok
        have hguardf : ¬ ((isTokChar c && (isWordOpt w p != w c)) = true) := by
          rw [htokf]
          simp
        simp only [findTokensWF, maximalRunsF]
        rw [if_neg hguardf, if_neg (by simp [htokf])]
        apply ih rest (some c) (by simpa using hlen)
          (fun d hd h => hgood d (List.mem_cons_of_mem c hd) h)
          (apostOk_tail p c rest hap)
        intro d hd htokd
        show w c = false
        cases hw : w c with
        | false => rfl
        | true =>
          have hlc := hgood c (List.mem_cons_self c rest) hw
          have htc : isTokChar c = true := by simp [isTokChar, hlc]
          rw [htokf] at htc
          exact absurd htc (by decide)

/-- Counterexample to claim C3 as stated: the tokenizer of
`calculate_word_stats` is `re.findall(r"\b[a-zA-Z']+\b", ...)`, whose `\b`
word-boundary anchors make it differ from "maximal runs of `[a-zA-Z']`".  On
the text `"a1"` (unchanged by lower-casing) the maximal-run reading yields
the token `"a"`, but the regex finds no token at all: there is no word
boundary between `a` and the digit `1`. -/
theorem c3_tokenize_counterexample :
    findTokens (("a1").data.map lowerChar) = []
    ∧ maximalRuns (("a1").data.map lowerChar) = ["a".data]
    ∧ findTokens (("a1").data.map lowerChar) ≠ maximalRuns (("a1").data.map lowerChar) :=
  ⟨by decide, by decide, by decide⟩

/-- Claim C3, amended: the tokenization step of `calculate_word_stats`
captures the maximal runs of ASCII letters and apostrophes that begin and
end at `\b` word boundaries, where `\b` is computed from Python's Unicode
word class (`str.isalnum` plus underscore).  For every word class `w` that
contains the ASCII letters - as Python's class does - the tokens coincide
with the maximal `[a-zA-Z']+` runs on any text all of whose `w`-word
characters are ASCII letters (no digits, underscores, or non-ASCII word
characters such as accented letters) and whose apostrophes are enclosed by
letters: in particular apostrophes inside a token (such as `don't`, which
still contains its apostrophe, so no pre-cleaning by the lyrics sanitizer is
assumed) are retained as part of the token.  A run adjacent to another word
character of the class (a digit, an underscore, or a non-ASCII word
character), or with an apostrophe at a run's edge, is trimmed or dropped by
the `\b` anchors (see the counterexample). -/
theorem c3_tokenize_amended :
    (∀ w : Char → Bool, (∀ c : Char, isAsciiLetter c = true → w c = true) →
        ∀ l : List Char,
          (∀ c ∈ l, w c = true → isAsciiLetter c = true) →
          apostOk none l = true →
          findTokensW w l = maximalRuns l)
    ∧ findTokens (("don" ++ sqStr ++ "t rush").data) =
        [("don" ++ sqStr ++ "t").data, "rush".data] := by
  refine ⟨?_, by decide⟩
  intro w hletw l hgood hap
  unfold findTokensW maximalRuns
  exact findTokensWF_eq_maximalRunsF w hletw l.length l none le_rfl hgood hap
    (fun c _ _ => rfl)

theorem c3_tokenize_witness :
    findTokensW isWordChar (("don" ++ sqStr ++ "t rush").data) =
      maximalRuns (("don" ++ sqStr ++ "t rush").data) :=
  c3_tokenize_amended.1 isWordChar isAsciiLetter_isWordChar
    (("don" ++ sqStr ++ "t rush").data) (by decide) (by decide)
